import Mathlib

/-!
Verification of the watermark-removal pipeline in `watermarkrm-auto.py`
(function `remove_watermark_from_image`), as a shallow embedding.

Modelling notes, recorded next to the definitions they concern:
* Images are BGR byte rasters (OpenCV layout): channel 0 = blue, 1 = green,
  2 = red.  A pixel is a triple of naturals; genuine image data satisfies
  `PxValid` (each channel at most 255).
* `cv2.normalize(hist, hist)` rescales the histogram by a positive factor
  (L2 normalisation); the only downstream use of the histogram is the
  ordering produced by `np.argsort`, which such a rescaling preserves, so
  the histogram is embedded as exact pixel counts.
* `np.argsort(hist)[::-1]` sorts 512 bin indices by frequency, descending.
  The order among equal-frequency bins is a deterministic but unspecified
  artifact of numpy's quicksort; the embedding uses a stable descending
  merge sort.  Theorems about the detector either hold for any descending
  order covering all 512 bins, or are stated against this fixed order.
* OpenCV's 8-bit BGR->HSV conversion is fixed-point integer arithmetic and
  is embedded exactly (tables `sdivTab`/`hdivTab`, shifts as floor
  division, `cvRound` as round-half-to-even `rneFrac`).  The 8-bit
  HSV->BGR conversion is float arithmetic in the source; here it is
  embedded as exact rational arithmetic (all values are fractions with
  denominator 7650 = 255*30) with the final `saturate_cast<uchar>(x*255)`
  as round-half-to-even plus clamping.  The float and exact-rational
  results can only differ where a float rounding error crosses a
  half-integer boundary, which does not occur at the concrete inputs used
  in the witnesses below.
-/

set_option maxRecDepth 8000

namespace WRM

/-- A pixel in OpenCV channel order: blue, green, red. -/
structure Px where
  b : ℕ
  g : ℕ
  r : ℕ
deriving DecidableEq, Repr

/-- A raster image: height, width, and the pixel grid (meaningful for
`y < h`, `x < w`). -/
structure Img where
  h : ℕ
  w : ℕ
  px : ℕ → ℕ → Px

/-- A pixel whose three channels are 8-bit values. -/
def PxValid (p : Px) : Prop := p.b ≤ 255 ∧ p.g ≤ 255 ∧ p.r ≤ 255

instance : DecidablePred PxValid := fun p => by unfold PxValid; infer_instance

/-- All in-bounds pixels of the image are 8-bit values. -/
def ValidIn (img : Img) : Prop :=
  ∀ y, y < img.h → ∀ x, x < img.w → PxValid (img.px y x)

instance (img : Img) : Decidable (ValidIn img) := by
  unfold ValidIn
  infer_instance

/-- An HSV triple as produced by OpenCV's 8-bit conversion
(hue in `[0,180)`, saturation and value in `[0,255]`). -/
structure Hsv where
  h : ℕ
  s : ℕ
  v : ℕ
deriving DecidableEq, Repr

/-- Round-half-to-even of the fraction `a / b` (for `b > 0`): OpenCV's
`cvRound` applied to an exact quotient. -/
def rneFrac (a : ℤ) (b : ℤ) : ℤ :=
  let q := a.fdiv b
  let r := a - q * b
  if 2 * r < b then q
  else if b < 2 * r then q + 1
  else if q % 2 = 0 then q else q + 1

/-- OpenCV's `saturate_cast<uchar>` applied to the exact fraction `a / b`:
round half to even, then clamp to `[0, 255]`. -/
def satCast8 (a : ℤ) (b : ℤ) : ℕ := (min (max (rneFrac a b) 0) 255).toNat

/-- OpenCV's `sdiv_table`: `cvRound((255 << 12) / i)`, with `1044480 = 255 * 4096`. -/
def sdivTab (v : ℕ) : ℤ := if v = 0 then 0 else rneFrac 1044480 v

/-- OpenCV's `hdiv_table180`: `cvRound((180 << 12) / (6 * i))`, with
`737280 = 180 * 4096`. -/
def hdivTab (d : ℕ) : ℤ := if d = 0 then 0 else rneFrac 737280 (6 * d)

/-- OpenCV 8-bit BGR -> HSV (`cv2.cvtColor(..., cv2.COLOR_BGR2HSV)`),
fixed-point: `v = max`, `s = (diff * sdiv[v] + 2^11) >> 12`, hue numerator
selected by which channel attains the max (red checked first, then green),
`h = (hnum * hdiv[diff] + 2^11) >> 12`, plus 180 if negative.  The C right
shift on a signed int is floor division, i.e. `Int.fdiv`. -/
def bgr2hsv (p : Px) : Hsv :=
  let b : ℤ := p.b
  let g : ℤ := p.g
  let r : ℤ := p.r
  let v : ℤ := max b (max g r)
  let vmin : ℤ := min b (min g r)
  let diff : ℤ := v - vmin
  let s : ℤ := (diff * sdivTab v.toNat + 2048).fdiv 4096
  let hnum : ℤ := if v = r then g - b else if v = g then b - r + 2 * diff else r - g + 4 * diff
  let h0 : ℤ := (hnum * hdivTab diff.toNat + 2048).fdiv 4096
  let h1 : ℤ := if h0 < 0 then h0 + 180 else h0
  ⟨h1.toNat, s.toNat, v.toNat⟩

/-- OpenCV 8-bit HSV -> BGR (`cv2.cvtColor(..., cv2.COLOR_HSV2BGR)`).
The source computes `h*(6/180)`, takes `fmod 6`, splits into sector and
fractional part, forms `tab0..tab3` and permutes them per sector
(`sector_data`), then `saturate_cast<uchar>(value * 255)`.  With `hN ≥ 0`,
`fmod(hN/30, 6) = (hN % 180)/30`, so sector `= (hN % 180)/30 ∈ [0,5]` (the
source's out-of-range sector fallback can never fire) and the fractional
part is `(hN % 180 % 30)/30`.  All `tab*255` values are exact fractions
over `7650 = 255 * 30`. -/
def hsv2bgr (hN sN vN : ℕ) : Px :=
  if sN = 0 then
    let o := satCast8 (vN : ℤ) 1
    ⟨o, o, o⟩
  else
    let hm : ℕ := hN % 180
    let sec : ℕ := hm / 30
    let fn : ℤ := (hm % 30 : ℕ)
    let s : ℤ := sN
    let v : ℤ := vN
    let t0 : ℤ := v * 7650
    let t1 : ℤ := v * (7650 - 30 * s)
    let t2 : ℤ := v * (7650 - s * fn)
    let t3 : ℤ := v * (7650 - s * (30 - fn))
    let bn : ℤ := if sec = 0 then t1 else if sec = 1 then t1 else if sec = 2 then t3
      else if sec = 3 then t0 else if sec = 4 then t0 else t2
    let gn : ℤ := if sec = 0 then t3 else if sec = 1 then t0 else if sec = 2 then t0
      else if sec = 3 then t2 else if sec = 4 then t1 else t1
    let rn : ℤ := if sec = 0 then t0 else if sec = 1 then t2 else if sec = 2 then t1
      else if sec = 3 then t1 else if sec = 4 then t3 else t0
    ⟨satCast8 bn 7650, satCast8 gn 7650, satCast8 rn 7650⟩

/-- Flattened index of the 8x8x8 joint histogram bin holding pixel `p`:
`cv2.calcHist([img],[0,1,2],None,[8,8,8],[0,256]*3)` bins channel 0 (blue)
on the major axis, then green, then red; `.flatten()` is C order. -/
def binIdx (p : Px) : ℕ := p.b / 32 * 64 + p.g / 32 * 8 + p.r / 32

/-- Histogram bin count (embedded as exact counts; `cv2.normalize` only
rescales by a positive factor and the histogram is used solely through the
argsort order, which rescaling preserves). -/
def hist (img : Img) (i : ℕ) : ℕ :=
  ∑ y ∈ Finset.range img.h, ∑ x ∈ Finset.range img.w,
    if binIdx (img.px y x) = i then 1 else 0

/-- `np.argsort(hist)[::-1]`: all 512 bin indices, sorted by frequency in
descending order (stable merge sort; numpy's tie order is unspecified). -/
def sortedIndices (img : Img) : List ℕ :=
  (List.range 512).mergeSort fun i j => decide (hist img j ≤ hist img i)

/-- `np.unravel_index(idx, (8,8,8))` followed by `*32 + 16` per component:
the bin's center in histogram-axis order.  Note the source names these
components `r, g, b` although axis 0 is the blue channel. -/
def binCenterOf (i : ℕ) : ℕ × ℕ × ℕ :=
  (i / 64 * 32 + 16, i / 8 % 8 * 32 + 16, i % 8 * 32 + 16)

/-- Channel sum of a bin-center triple (`r + g + b` in the source). -/
def sum3 (c : ℕ × ℕ × ℕ) : ℕ := c.1 + c.2.1 + c.2.2

/-- Channel spread of a bin-center triple (`max - min` in the source). -/
def spread3 (c : ℕ × ℕ × ℕ) : ℕ :=
  max c.1 (max c.2.1 c.2.2) - min c.1 (min c.2.1 c.2.2)

/-- The detector's two filters: not too dark (sum at least 150) and not
near-gray (spread at least 20). -/
def passesC (c : ℕ × ℕ × ℕ) : Bool := !decide (sum3 c < 150) && !decide (spread3 c < 20)

/-- Filter applied to a bin index through its center. -/
def passesB (i : ℕ) : Bool := passesC (binCenterOf i)

/-- The detector's scan loop: skip dark bins, skip near-gray bins, return
the first remaining bin center. -/
def detectScan : List ℕ → Option (ℕ × ℕ × ℕ)
  | [] => none
  | idx :: rest =>
    let c := binCenterOf idx
    if sum3 c < 150 then detectScan rest
    else if spread3 c < 20 then detectScan rest
    else some c

/-- `watermark_color_rgb` after the loop and the fallback: the first
passing bin center in descending-frequency order, else `(230,230,230)`. -/
def detectColor (img : Img) : ℕ × ℕ × ℕ :=
  (detectScan (sortedIndices img)).getD (230, 230, 230)

/-- `target_bgr = np.array([b, g, r])` where `r, g, b = watermark_color_rgb`:
the detected triple reversed. -/
def targetBgr (wm : ℕ × ℕ × ℕ) : ℤ × ℤ × ℤ := ((wm.2.2 : ℤ), (wm.2.1 : ℤ), (wm.1 : ℤ))

/-- `np.clip(z, 0, 255).astype(np.uint8)` on an int16 value. -/
def clip8 (z : ℤ) : ℕ := (min (max z 0) 255).toNat

/-- `lower_bgr` for tolerance multiplier `i` (base tolerance 80). -/
def lowerPx (t : ℤ × ℤ × ℤ) (i : ℕ) : Px :=
  ⟨clip8 (t.1 - 80 * i), clip8 (t.2.1 - 80 * i), clip8 (t.2.2 - 80 * i)⟩

/-- `upper_bgr` for tolerance multiplier `i` (base tolerance 80). -/
def upperPx (t : ℤ × ℤ × ℤ) (i : ℕ) : Px :=
  ⟨clip8 (t.1 + 80 * i), clip8 (t.2.1 + 80 * i), clip8 (t.2.2 + 80 * i)⟩

/-- `cv2.inRange(img, lo, hi)` at one pixel: 255 when every channel lies in
the inclusive range, else 0. -/
def inRange01 (p lo hi : Px) : ℕ :=
  if lo.b ≤ p.b ∧ p.b ≤ hi.b ∧ lo.g ≤ p.g ∧ p.g ≤ hi.g ∧ lo.r ≤ p.r ∧ p.r ≤ hi.r
  then 255 else 0

/-- Pixel `p` lies in the inclusive tolerance band for multiplier `i`. -/
def InBand (p : Px) (t : ℤ × ℤ × ℤ) (i : ℕ) : Prop :=
  inRange01 p (lowerPx t i) (upperPx t i) = 255

instance (p : Px) (t : ℤ × ℤ × ℤ) (i : ℕ) : Decidable (InBand p t i) := by
  unfold InBand
  infer_instance

/-- The raw mask value at one pixel: `mask = inRange(band 1)` followed by
`mask += inRange(band i)` for `i = 1, 2, 3`, with 8-bit wraparound
(`% 256`), exactly as the uint8 array arithmetic in the source. -/
def rawMaskAt (p : Px) (t : ℤ × ℤ × ℤ) : ℕ :=
  (inRange01 p (lowerPx t 1) (upperPx t 1)
    + inRange01 p (lowerPx t 1) (upperPx t 1)
    + inRange01 p (lowerPx t 2) (upperPx t 2)
    + inRange01 p (lowerPx t 3) (upperPx t 3)) % 256

/-- The 5x5 elliptical structuring element
`cv2.getStructuringElement(cv2.MORPH_ELLIPSE, (5,5))` as offsets from the
anchor (2,2): full rows at vertical offsets -1..1, single center column at
-2 and 2. -/
def ellipse5 : List (ℤ × ℤ) :=
  [(-2, 0),
   (-1, -2), (-1, -1), (-1, 0), (-1, 1), (-1, 2),
   (0, -2), (0, -1), (0, 0), (0, 1), (0, 2),
   (1, -2), (1, -1), (1, 0), (1, 1), (1, 2),
   (2, 0)]

/-- The in-bounds mask values covered by the structuring element anchored
at `(y, x)`.  OpenCV's morphological border value makes out-of-bounds
positions neutral for both erosion and dilation, so they are dropped. -/
def nbrVals (h w : ℕ) (m : ℕ → ℕ → ℕ) (y x : ℕ) : List ℕ :=
  ellipse5.filterMap fun d =>
    let i : ℤ := (y : ℤ) + d.1
    let j : ℤ := (x : ℤ) + d.2
    if 0 ≤ i ∧ i < (h : ℤ) ∧ 0 ≤ j ∧ j < (w : ℤ) then some (m i.toNat j.toNat) else none

/-- One dilation step: neighborhood maximum (out-of-bounds neighbors are
the dilation-neutral minimum, here 0, as mask values are nonneg). -/
def dilateOnce (h w : ℕ) (m : ℕ → ℕ → ℕ) : ℕ → ℕ → ℕ :=
  fun y x => (nbrVals h w m y x).foldl max 0

/-- One erosion step: neighborhood minimum (out-of-bounds neighbors are the
erosion-neutral maximum, here 255, as mask values are 8-bit). -/
def erodeOnce (h w : ℕ) (m : ℕ → ℕ → ℕ) : ℕ → ℕ → ℕ :=
  fun y x => (nbrVals h w m y x).foldl min 255

/-- `cv2.morphologyEx(mask, cv2.MORPH_CLOSE, kernel, iterations=1)`:
dilation followed by erosion. -/
def closeOnce (h w : ℕ) (m : ℕ → ℕ → ℕ) : ℕ → ℕ → ℕ :=
  erodeOnce h w (dilateOnce h w m)

/-- Iterated dilation (`cv2.dilate(mask, kernel, iterations=n)`). -/
def dilateIter (h w : ℕ) : ℕ → (ℕ → ℕ → ℕ) → (ℕ → ℕ → ℕ)
  | 0, m => m
  | n + 1, m => dilateIter h w n (dilateOnce h w m)

/-- The full mask pipeline for a given target color: raw accumulated range
mask, then closing, then dilation with 5 iterations. -/
def buildMask (img : Img) (t : ℤ × ℤ × ℤ) : ℕ → ℕ → ℕ :=
  dilateIter img.h img.w 5 (closeOnce img.h img.w fun y x => rawMaskAt (img.px y x) t)

/-- The target color handed to the mask builder by the pipeline. -/
def pipeTarget (img : Img) : ℤ × ℤ × ℤ := targetBgr (detectColor img)

/-- The pipeline's mask (`mask` after morphology in the source). -/
def pipeMask (img : Img) : ℕ → ℕ → ℕ := buildMask img (pipeTarget img)

/-- `np.sum(mask)` over the image extent. -/
def maskSum (img : Img) (m : ℕ → ℕ → ℕ) : ℕ :=
  ∑ y ∈ Finset.range img.h, ∑ x ∈ Finset.range img.w, m y x

/-- `cv2.bitwise_not` on a uint8 value. -/
def bnot8 (x : ℕ) : ℕ := 255 - x

/-- Maximum channel of a pixel. -/
def max3 (p : Px) : ℕ := max p.b (max p.g p.r)

/-- Minimum channel of a pixel. -/
def min3 (p : Px) : ℕ := min p.b (min p.g p.r)

/-- Channel spread (`np.max(pixel) - np.min(pixel)`). -/
def spreadPx (p : Px) : ℕ := max3 p - min3 p

/-- Saturation channel of `hsv_adjusted`: zeroed where the mask is set
(`hsv_adjusted[mask > 0, 1] = 0`), the original saturation elsewhere. -/
def adjSat (img : Img) (m : ℕ → ℕ → ℕ) (y x : ℕ) : ℕ :=
  if 0 < m y x then 0 else (bgr2hsv (img.px y x)).s

/-- `refined_mask`: a copy of the mask, zeroed where the adjusted
saturation exceeds 30 or the value channel is below 175. -/
def refinedAt (img : Img) (m : ℕ → ℕ → ℕ) (y x : ℕ) : ℕ :=
  if 30 < adjSat img m y x ∨ (bgr2hsv (img.px y x)).v < 175 then 0 else m y x

/-- `text_mask = cv2.bitwise_and(mask, cv2.bitwise_not(refined_mask))`. -/
def textAt (img : Img) (m : ℕ → ℕ → ℕ) (y x : ℕ) : ℕ :=
  m y x &&& bnot8 (refinedAt img m y x)

/-- The compositor at one pixel: desaturated reconversion, then the text
overwrite from the original, then the whitening loop (white where the
refined mask is set and the original spread is at least 50).  The three
writes target disjoint pixel sets; the last write is modelled outermost. -/
def compositeAt (img : Img) (m : ℕ → ℕ → ℕ) (y x : ℕ) : Px :=
  let p := img.px y x
  let c := bgr2hsv p
  let res1 := hsv2bgr c.h (adjSat img m y x) c.v
  let res2 := if 0 < textAt img m y x then p else res1
  if 0 < refinedAt img m y x ∧ 50 ≤ spreadPx p then ⟨255, 255, 255⟩ else res2

/-- `remove_watermark_from_image`: detect the color, build the mask, return
the input unchanged when the mask sums to zero, otherwise composite. -/
def remove_watermark_from_image (img : Img) : Img :=
  if maskSum img (pipeMask img) = 0 then img
  else ⟨img.h, img.w, fun y x => compositeAt img (pipeMask img) y x⟩

/-- The refined mask as produced inside the pipeline. -/
def pipeRefined (img : Img) (y x : ℕ) : ℕ := refinedAt img (pipeMask img) y x

/-- The text mask as produced inside the pipeline. -/
def pipeText (img : Img) (y x : ℕ) : ℕ := textAt img (pipeMask img) y x

/-- The zero-saturation, value-preserving transform of a pixel: the gray
level equal to the pixel's HSV value (its maximum channel). -/
def desatPx (p : Px) : Px := ⟨max3 p, max3 p, max3 p⟩

/-- Mask values are 8-bit. -/
def BddM (m : ℕ → ℕ → ℕ) : Prop := ∀ y x, m y x ≤ 255

/-- Mask values are positive at every in-bounds coordinate. -/
def PosIn (h w : ℕ) (m : ℕ → ℕ → ℕ) : Prop :=
  ∀ y x, y < h → x < w → 0 < m y x

theorem foldl_max_le {c : ℕ} :
    ∀ (l : List ℕ) (init : ℕ), init ≤ c → (∀ a ∈ l, a ≤ c) → l.foldl max init ≤ c := by
  intro l
  induction l with
  | nil => intro init hi _; simpa using hi
  | cons a t ih =>
    intro init hi hl
    simp only [List.foldl_cons]
    exact ih _ (max_le hi (hl a (List.mem_cons_self a t)))
      fun b hb => hl b (List.mem_cons_of_mem a hb)

theorem init_le_foldl_max : ∀ (l : List ℕ) (init : ℕ), init ≤ l.foldl max init := by
  intro l
  induction l with
  | nil => intro init; exact le_rfl
  | cons a t ih =>
    intro init
    simp only [List.foldl_cons]
    exact le_trans (le_max_left init a) (ih (max init a))

theorem le_foldl_max_of_mem {a : ℕ} :
    ∀ (l : List ℕ) (init : ℕ), a ∈ l → a ≤ l.foldl max init := by
  intro l
  induction l with
  | nil => intro init ha; cases ha
  | cons b t ih =>
    intro init ha
    simp only [List.foldl_cons]
    rcases List.mem_cons.mp ha with rfl | ha
    · exact le_trans (le_max_right init a) (init_le_foldl_max t (max init a))
    · exact ih _ ha

theorem foldl_min_le_init : ∀ (l : List ℕ) (init : ℕ), l.foldl min init ≤ init := by
  intro l
  induction l with
  | nil => intro init; exact le_rfl
  | cons a t ih =>
    intro init
    simp only [List.foldl_cons]
    exact le_trans (ih (min init a)) (min_le_left init a)

theorem foldl_min_pos :
    ∀ (l : List ℕ) (init : ℕ), 0 < init → (∀ a ∈ l, 0 < a) → 0 < l.foldl min init := by
  intro l
  induction l with
  | nil => intro init hi _; simpa using hi
  | cons a t ih =>
    intro init hi hl
    simp only [List.foldl_cons]
    exact ih _ (lt_min hi (hl a (List.mem_cons_self a t)))
      fun b hb => hl b (List.mem_cons_of_mem a hb)

theorem mem_nbrVals_bound {h w : ℕ} {m : ℕ → ℕ → ℕ} {y x a : ℕ}
    (ha : a ∈ nbrVals h w m y x) : ∃ i j, i < h ∧ j < w ∧ a = m i j := by
  unfold nbrVals at ha
  rw [List.mem_filterMap] at ha
  obtain ⟨d, _, hd⟩ := ha
  simp only at hd
  split at hd
  · rename_i hc
    refine ⟨((y : ℤ) + d.1).toNat, ((x : ℤ) + d.2).toNat, ?_, ?_, ?_⟩
    · omega
    · omega
    · exact (Option.some_inj.mp hd).symm
  · cases hd

theorem self_mem_nbrVals {h w : ℕ} (m : ℕ → ℕ → ℕ) {y x : ℕ}
    (hy : y < h) (hx : x < w) : m y x ∈ nbrVals h w m y x := by
  unfold nbrVals
  rw [List.mem_filterMap]
  refine ⟨(0, 0), by decide, ?_⟩
  have hcy : ((y : ℤ) + 0).toNat = y := by omega
  have hcx : ((x : ℤ) + 0).toNat = x := by omega
  rw [if_pos (by constructor <;> omega)]
  rw [hcy, hcx]

theorem dilateOnce_bdd {h w : ℕ} {m : ℕ → ℕ → ℕ} (hm : BddM m) :
    BddM (dilateOnce h w m) := by
  intro y x
  apply foldl_max_le _ _ (Nat.zero_le 255)
  intro a ha
  obtain ⟨i, j, _, _, rfl⟩ := mem_nbrVals_bound ha
  exact hm i j

theorem erodeOnce_bdd {h w : ℕ} (m : ℕ → ℕ → ℕ) : BddM (erodeOnce h w m) :=
  fun _y _x => foldl_min_le_init _ 255

theorem dilateIter_bdd {h w : ℕ} :
    ∀ (n : ℕ) (m : ℕ → ℕ → ℕ), BddM m → BddM (dilateIter h w n m) := by
  intro n
  induction n with
  | zero => intro m hm; exact hm
  | succ k ih => intro m hm; exact ih (dilateOnce h w m) (dilateOnce_bdd hm)

theorem pipeMask_bdd (img : Img) : BddM (pipeMask img) := by
  unfold pipeMask buildMask closeOnce
  exact dilateIter_bdd 5 _ (erodeOnce_bdd _)

theorem buildMask_bdd (img : Img) (t : ℤ × ℤ × ℤ) : BddM (buildMask img t) := by
  unfold buildMask closeOnce
  exact dilateIter_bdd 5 _ (erodeOnce_bdd _)

theorem dilateOnce_pos {h w : ℕ} {m : ℕ → ℕ → ℕ} (hm : PosIn h w m) :
    PosIn h w (dilateOnce h w m) := by
  intro y x hy hx
  exact lt_of_lt_of_le (hm y x hy hx)
    (le_foldl_max_of_mem _ 0 (self_mem_nbrVals m hy hx))

theorem erodeOnce_pos {h w : ℕ} {m : ℕ → ℕ → ℕ} (hm : PosIn h w m) :
    PosIn h w (erodeOnce h w m) := by
  intro y x _ _
  apply foldl_min_pos _ 255 (by norm_num)
  intro a ha
  obtain ⟨i, j, hi, hj, rfl⟩ := mem_nbrVals_bound ha
  exact hm i j hi hj

theorem dilateIter_pos {h w : ℕ} :
    ∀ (n : ℕ) (m : ℕ → ℕ → ℕ), PosIn h w m → PosIn h w (dilateIter h w n m) := by
  intro n
  induction n with
  | zero => intro m hm; exact hm
  | succ k ih => intro m hm; exact ih (dilateOnce h w m) (dilateOnce_pos hm)

theorem land_bnot8_self : ∀ v, v < 256 → v &&& (255 - v) = 0 := by decide

theorem land_255_self : ∀ v, v < 256 → v &&& 255 = v := by decide

theorem inRange01_eq_or (p lo hi : Px) : inRange01 p lo hi = 255 ∨ inRange01 p lo hi = 0 := by
  unfold inRange01
  split
  · exact Or.inl rfl
  · exact Or.inr rfl

theorem inRange01_eq_iff (p lo hi : Px) :
    inRange01 p lo hi = 255 ↔
      (lo.b ≤ p.b ∧ p.b ≤ hi.b ∧ lo.g ≤ p.g ∧ p.g ≤ hi.g ∧ lo.r ≤ p.r ∧ p.r ≤ hi.r) := by
  unfold inRange01
  split
  · rename_i hc; exact iff_of_true rfl hc
  · rename_i hc; exact iff_of_false (by norm_num) hc

theorem rneFrac_one (a : ℤ) : rneFrac a 1 = a := by
  unfold rneFrac
  simp only [Int.fdiv_one]
  have hr : a - a * 1 = 0 := by ring
  rw [hr]
  norm_num

theorem hsv2bgr_zero_sat (hN vN : ℕ) (hv : vN ≤ 255) : hsv2bgr hN 0 vN = ⟨vN, vN, vN⟩ := by
  unfold hsv2bgr satCast8
  rw [if_pos rfl, rneFrac_one]
  have : (min (max (vN : ℤ) 0) 255).toNat = vN := by omega
  rw [this]

theorem bgr2hsv_v (p : Px) : (bgr2hsv p).v = max3 p := by
  show (max (p.b : ℤ) (max (p.g : ℤ) (p.r : ℤ))).toNat = max p.b (max p.g p.r)
  omega

theorem rawMaskAt_bdd (p : Px) (t : ℤ × ℤ × ℤ) : rawMaskAt p t ≤ 255 := by
  unfold rawMaskAt
  omega

theorem clip8_mono {a b : ℤ} (hab : a ≤ b) : clip8 a ≤ clip8 b := by
  unfold clip8
  omega

theorem rawMaskAt_pos (p : Px) (t : ℤ × ℤ × ℤ) (hp : PxValid p)
    (h1 : 15 ≤ t.1) (h2 : t.1 ≤ 240) (h3 : 15 ≤ t.2.1) (h4 : t.2.1 ≤ 240)
    (h5 : 15 ≤ t.2.2) (h6 : t.2.2 ≤ 240) : 0 < rawMaskAt p t := by
  obtain ⟨hb, hg, hr⟩ := hp
  have hb3 : inRange01 p (lowerPx t 3) (upperPx t 3) = 255 := by
    rw [inRange01_eq_iff]
    unfold lowerPx upperPx clip8
    refine ⟨?_, ?_, ?_, ?_, ?_, ?_⟩ <;> · simp only [] ; omega
  rcases inRange01_eq_or p (lowerPx t 1) (upperPx t 1) with e1 | e1 <;>
    rcases inRange01_eq_or p (lowerPx t 2) (upperPx t 2) with e2 | e2 <;>
    · unfold rawMaskAt ; rw [e1, e2, hb3] ; norm_num

theorem maskSum_ne_zero_of (img : Img) (m : ℕ → ℕ → ℕ) {y x : ℕ}
    (hy : y < img.h) (hx : x < img.w) (hm : m y x ≠ 0) : maskSum img m ≠ 0 := by
  unfold maskSum
  intro h0
  rw [Finset.sum_eq_zero_iff] at h0
  have hrow := h0 y (Finset.mem_range.mpr hy)
  rw [Finset.sum_eq_zero_iff] at hrow
  exact hm (hrow x (Finset.mem_range.mpr hx))

theorem detectScan_eq_find :
    ∀ l : List ℕ, detectScan l = (l.find? passesB).map binCenterOf := by
  intro l
  induction l with
  | nil => rfl
  | cons i t ih =>
    by_cases h1 : sum3 (binCenterOf i) < 150
    · have hp : passesB i = false := by simp [passesB, passesC, h1]
      simp only [detectScan, if_pos h1, List.find?_cons, hp, ih]
    · by_cases h2 : spread3 (binCenterOf i) < 20
      · have hp : passesB i = false := by simp [passesB, passesC, h2]
        simp only [detectScan, if_neg h1, if_pos h2, List.find?_cons, hp, ih]
      · have hp : passesB i = true := by simp [passesB, passesC, h1, h2]
        simp only [detectScan, if_neg h1, if_neg h2, List.find?_cons, hp, Option.map_some']

theorem sortedIndices_perm (img : Img) : (sortedIndices img).Perm (List.range 512) :=
  List.mergeSort_perm (List.range 512) _

theorem exists_passing (img : Img) :
    ∃ i, (sortedIndices img).find? passesB = some i ∧ passesB i = true := by
  have h4 : (4 : ℕ) ∈ sortedIndices img :=
    (sortedIndices_perm img).mem_iff.mpr (List.mem_range.mpr (by norm_num))
  have hs : ((sortedIndices img).find? passesB).isSome :=
    List.find?_isSome.mpr ⟨4, h4, by decide⟩
  obtain ⟨i, hi⟩ := Option.isSome_iff_exists.mp hs
  exact ⟨i, hi, List.find?_some hi⟩

theorem detectColor_eq (img : Img) (i : ℕ)
    (hf : (sortedIndices img).find? passesB = some i) :
    detectColor img = binCenterOf i := by
  unfold detectColor
  rw [detectScan_eq_find, hf]
  rfl

theorem detect_ne_fallback (img : Img) : detectColor img ≠ (230, 230, 230) := by
  obtain ⟨i, hf, _⟩ := exists_passing img
  rw [detectColor_eq img i hf]
  unfold binCenterOf
  intro hEq
  have h1 := congrArg Prod.fst hEq
  simp only at h1
  omega

theorem detectColor_range (img : Img) :
    (15 ≤ (detectColor img).1 ∧ (detectColor img).1 ≤ 240) ∧
      (15 ≤ (detectColor img).2.1 ∧ (detectColor img).2.1 ≤ 240) ∧
      (15 ≤ (detectColor img).2.2 ∧ (detectColor img).2.2 ≤ 240) := by
  cases hf : (sortedIndices img).find? passesB with
  | none =>
    unfold detectColor
    rw [detectScan_eq_find, hf]
    norm_num [Option.getD]
  | some i =>
    rw [detectColor_eq img i hf]
    have hi : i < 512 := List.mem_range.mp
      ((sortedIndices_perm img).mem_iff.mp (List.mem_of_find?_eq_some hf))
    unfold binCenterOf
    refine ⟨⟨?_, ?_⟩, ⟨?_, ?_⟩, ?_, ?_⟩ <;> · simp only [] ; omega

theorem pipeTarget_range (img : Img) :
    (15 ≤ (pipeTarget img).1 ∧ (pipeTarget img).1 ≤ 240) ∧
      (15 ≤ (pipeTarget img).2.1 ∧ (pipeTarget img).2.1 ≤ 240) ∧
      (15 ≤ (pipeTarget img).2.2 ∧ (pipeTarget img).2.2 ≤ 240) := by
  obtain ⟨⟨a1, a2⟩, ⟨b1, b2⟩, c1, c2⟩ := detectColor_range img
  unfold pipeTarget targetBgr
  refine ⟨⟨?_, ?_⟩, ⟨?_, ?_⟩, ?_, ?_⟩ <;> · simp only [] ; omega

theorem pipeMask_pos (img : Img) (hv : ValidIn img) : PosIn img.h img.w (pipeMask img) := by
  obtain ⟨⟨a1, a2⟩, ⟨b1, b2⟩, c1, c2⟩ := pipeTarget_range img
  have h0 : PosIn img.h img.w fun y x => rawMaskAt (img.px y x) (pipeTarget img) :=
    fun y x hy hx => rawMaskAt_pos _ _ (hv y hy x hx) a1 a2 b1 b2 c1 c2
  unfold pipeMask buildMask closeOnce
  exact dilateIter_pos 5 _ (erodeOnce_pos (dilateOnce_pos h0))

theorem buildMask_pos (img : Img) (t : ℤ × ℤ × ℤ) (hv : ValidIn img)
    (h1 : 15 ≤ t.1) (h2 : t.1 ≤ 240) (h3 : 15 ≤ t.2.1) (h4 : t.2.1 ≤ 240)
    (h5 : 15 ≤ t.2.2) (h6 : t.2.2 ≤ 240) : PosIn img.h img.w (buildMask img t) := by
  have h0 : PosIn img.h img.w fun y x => rawMaskAt (img.px y x) t :=
    fun y x hy hx => rawMaskAt_pos _ _ (hv y hy x hx) h1 h2 h3 h4 h5 h6
  unfold buildMask closeOnce
  exact dilateIter_pos 5 _ (erodeOnce_pos (dilateOnce_pos h0))

theorem refinedAt_cases (img : Img) (m : ℕ → ℕ → ℕ) (y x : ℕ) :
    refinedAt img m y x = 0 ∨ refinedAt img m y x = m y x := by
  unfold refinedAt
  split
  · exact Or.inl rfl
  · exact Or.inr rfl

theorem textAt_eq (img : Img) (m : ℕ → ℕ → ℕ) (y x : ℕ) (hb : m y x ≤ 255) :
    textAt img m y x = if refinedAt img m y x = 0 then m y x else 0 := by
  rcases refinedAt_cases img m y x with hc | hc
  · unfold textAt bnot8
    rw [hc, if_pos rfl]
    simpa using land_255_self (m y x) (by omega)
  · by_cases hz : m y x = 0
    · unfold textAt
      rw [hc, hz]
      simp [Nat.zero_and]
    · unfold textAt
      rw [hc, if_neg (by omega)]
      exact land_bnot8_self (m y x) (by omega)

theorem compositeAt_spec (img : Img) (m : ℕ → ℕ → ℕ) (y x : ℕ) :
    compositeAt img m y x =
      if 0 < refinedAt img m y x ∧ 50 ≤ spreadPx (img.px y x) then ⟨255, 255, 255⟩
      else if 0 < textAt img m y x then img.px y x
      else hsv2bgr (bgr2hsv (img.px y x)).h (adjSat img m y x) (bgr2hsv (img.px y x)).v := rfl

theorem remove_px (img : Img) (hne : maskSum img (pipeMask img) ≠ 0) (y x : ℕ) :
    (remove_watermark_from_image img).px y x = compositeAt img (pipeMask img) y x := by
  unfold remove_watermark_from_image
  rw [if_neg hne]

theorem inBand_mono (p : Px) (t : ℤ × ℤ × ℤ) {i j : ℕ} (hij : i ≤ j) :
    InBand p t i → InBand p t j := by
  unfold InBand
  rw [inRange01_eq_iff, inRange01_eq_iff]
  unfold lowerPx upperPx clip8
  intro hc
  obtain ⟨u1, u2, u3, u4, u5, u6⟩ := hc
  simp only [] at *
  refine ⟨?_, ?_, ?_, ?_, ?_, ?_⟩ <;> omega

/-- Concrete 1x1 image whose pixel `(0, 101, 200)` in BGR has channel
spread 200 and HSV value 200; used as witness input. -/
def img1 : Img := ⟨1, 1, fun _ _ => ⟨0, 101, 200⟩⟩

/-- Concrete 1x1 image whose pixel `(200, 190, 180)` has channel spread 20
and HSV value 200; used as witness input. -/
def img2 : Img := ⟨1, 1, fun _ _ => ⟨200, 190, 180⟩⟩

/-- Concrete 1x1 image with a dark pixel (HSV value 100 below the 175
threshold); used as witness input. -/
def img3 : Img := ⟨1, 1, fun _ _ => ⟨0, 0, 100⟩⟩

/-- Concrete 1x1 all-white image. -/
def allWhite11 : Img := ⟨1, 1, fun _ _ => ⟨255, 255, 255⟩⟩

/-- The empty (zero-by-zero) image. -/
def emptyImg : Img := ⟨0, 0, fun _ _ => ⟨255, 255, 255⟩⟩

/-- The everywhere-zero (empty) mask. -/
def zeroMask : ℕ → ℕ → ℕ := fun _ _ => 0

/-- The channel reversal `(c0, c1, c2) ↦ (c2, c1, c0)` as integer triple. -/
def revTriple (c : ℕ × ℕ × ℕ) : ℤ × ℤ × ℤ := ((c.2.2 : ℤ), (c.2.1 : ℤ), (c.1 : ℤ))

/-- C8: the wrapping 8-bit accumulation of the 0/255 range masks
(multiplier-1 band added twice, then bands 2 and 3) is nonzero at a pixel
exactly when the pixel lies in at least one of the three inclusive
tolerance bands, i.e. the accumulation is truthiness-equivalent to the
logical union of the three band masks. -/
theorem C8_accumulation_union (p : Px) (t : ℤ × ℤ × ℤ) :
    rawMaskAt p t ≠ 0 ↔ (InBand p t 1 ∨ InBand p t 2 ∨ InBand p t 3) := by
  unfold rawMaskAt InBand
  rcases inRange01_eq_or p (lowerPx t 1) (upperPx t 1) with e1 | e1 <;>
    rcases inRange01_eq_or p (lowerPx t 2) (upperPx t 2) with e2 | e2 <;>
    rcases inRange01_eq_or p (lowerPx t 3) (upperPx t 3) with e3 | e3 <;>
    rw [e1, e2, e3] <;> norm_num

/-- C9: for any pixel and fixed target color, the multiplier-1 tolerance
band is contained in the multiplier-2 band, which is contained in the
multiplier-3 band (the clamped inclusive ranges widen monotonically), and
hence the band-1 mask is a subset of the union of bands 1-2, which is a
subset of the union of bands 1-3. -/
theorem C9_mask_monotonicity (p : Px) (t : ℤ × ℤ × ℤ) :
    (InBand p t 1 → InBand p t 2) ∧ (InBand p t 2 → InBand p t 3) ∧
      (InBand p t 1 → InBand p t 1 ∨ InBand p t 2) ∧
      ((InBand p t 1 ∨ InBand p t 2) → InBand p t 1 ∨ InBand p t 2 ∨ InBand p t 3) := by
  refine ⟨inBand_mono p t (by norm_num), inBand_mono p t (by norm_num), Or.inl, ?_⟩
  rintro (h | h)
  · exact Or.inl h
  · exact Or.inr (Or.inl h)

/-- Witness for C9 at the pixel `(100,100,100)` and target `(100,100,100)`:
membership in band 1 propagates to bands 2 and 3. -/
theorem C9_mask_monotonicity_witness :
    InBand ⟨100, 100, 100⟩ ((100 : ℤ), (100 : ℤ), (100 : ℤ)) 2 ∧
      InBand ⟨100, 100, 100⟩ ((100 : ℤ), (100 : ℤ), (100 : ℤ)) 3 := by
  have h1 : InBand ⟨100, 100, 100⟩ ((100 : ℤ), (100 : ℤ), (100 : ℤ)) 1 := by decide
  have h2 := (C9_mask_monotonicity ⟨100, 100, 100⟩ ((100 : ℤ), (100 : ℤ), (100 : ℤ))).1 h1
  exact ⟨h2, (C9_mask_monotonicity ⟨100, 100, 100⟩ ((100 : ℤ), (100 : ℤ), (100 : ℤ))).2.1 h2⟩

/-- C3: the detector scans all 512 bins in descending frequency order (the
scan list is a permutation of the bin indices, pairwise sorted by
frequency) and returns the bucket center of the first bin whose center
passes the darkness filter (sum at least 150) and the gray filter (spread
at least 20); if no bin passes, it returns the fallback (230,230,230). -/
theorem C3_dominant_color_detector (img : Img) :
    (sortedIndices img).Perm (List.range 512) ∧
      (sortedIndices img).Pairwise (fun i j => hist img j ≤ hist img i) ∧
      detectColor img =
        ((sortedIndices img).find? passesB).elim (230, 230, 230) binCenterOf := by
  refine ⟨sortedIndices_perm img, ?_, ?_⟩
  · have hs := @List.sorted_mergeSort ℕ (fun i j => decide (hist img j ≤ hist img i))
      (by
        intro a b c hab hbc
        simp only [decide_eq_true_eq] at *
        exact le_trans hbc hab)
      (by
        intro a b
        rcases le_total (hist img b) (hist img a) with hle | hle <;> simp [hle])
      (List.range 512)
    exact hs.imp fun hd => of_decide_eq_true hd
  · unfold detectColor
    rw [detectScan_eq_find]
    rcases (sortedIndices img).find? passesB with _ | i <;> rfl

/-- C10: the color the tolerance mask is centered on is the channel
reversal of the selected histogram bin's center.  The histogram axes are
(blue, green, red); the source unpacks the selected bin index into
variables named `r_bin, g_bin, b_bin` (axis order, so `r_bin` is really the
blue axis) and then builds `target_bgr = [b, g, r]`, which lands the red
axis center in the blue slot and vice versa.  The detection filters
themselves are symmetric under this reversal. -/
theorem C10_channel_reversal (img : Img) :
    (∃ i, (sortedIndices img).find? passesB = some i ∧
        pipeTarget img = revTriple (binCenterOf i)) ∧
      ∀ c0 c1 c2 : ℕ, passesC (c0, c1, c2) = passesC (c2, c1, c0) := by
  constructor
  · obtain ⟨i, hf, _⟩ := exists_passing img
    refine ⟨i, hf, ?_⟩
    unfold pipeTarget
    rw [detectColor_eq img i hf]
    rfl
  · intro c0 c1 c2
    unfold passesC sum3 spread3
    simp only []
    rw [show c0 + c1 + c2 = c2 + c1 + c0 by ring,
      show max c0 (max c1 c2) = max c2 (max c1 c0) by omega,
      show min c0 (min c1 c2) = min c2 (min c1 c0) by omega]

/-- C4: when the mask (after closing and dilation) sums to zero, the
operation returns its input unchanged; the short-circuit happens before the
HSV/refinement/compositing stages, which is reflected here by the result
being the input image object itself. -/
theorem C4_empty_mask_short_circuit (img : Img)
    (h0 : maskSum img (pipeMask img) = 0) : remove_watermark_from_image img = img := by
  unfold remove_watermark_from_image
  rw [if_pos h0]

/-- Witness for C4: the empty image has an empty mask and passes through
unchanged.  (For any image with at least one pixel the widest tolerance
band covers the whole color cube, so the guard can only fire on an empty
raster.) -/
theorem C4_empty_mask_short_circuit_witness :
    maskSum emptyImg (pipeMask emptyImg) = 0 ∧
      remove_watermark_from_image emptyImg = emptyImg := by
  have h0 : maskSum emptyImg (pipeMask emptyImg) = 0 := by
    unfold maskSum emptyImg
    simp
  exact ⟨h0, C4_empty_mask_short_circuit emptyImg h0⟩

/-- C5: the refined mask is a subset of the mask, the refined and text
masks are disjoint, and their union is the mask (as sets of pixels with
nonzero mask value). -/
theorem C5_partition_invariant (img : Img) (y x : ℕ) :
    (pipeRefined img y x ≠ 0 → pipeMask img y x ≠ 0) ∧
      ¬(pipeRefined img y x ≠ 0 ∧ pipeText img y x ≠ 0) ∧
      (pipeMask img y x ≠ 0 ↔ pipeRefined img y x ≠ 0 ∨ pipeText img y x ≠ 0) := by
  have hb := pipeMask_bdd img y x
  have ht := textAt_eq img (pipeMask img) y x hb
  unfold pipeRefined pipeText
  rw [ht]
  rcases refinedAt_cases img (pipeMask img) y x with hc | hc <;> rw [hc]
  · simp
  · by_cases hz : pipeMask img y x = 0
    · simp [hz]
    · rw [if_neg hz]
      refine ⟨fun h => h, ?_, fun h => Or.inl h, ?_⟩
      · rintro ⟨_, h0⟩
        exact h0 rfl
      · rintro (h | h)
        · exact h
        · exact absurd rfl h

/-- Witness for C5: on a concrete image the mask at (0,0) is nonzero, so by
the partition invariant the pixel lies in the refined mask or the text
mask. -/
theorem C5_partition_invariant_witness :
    pipeRefined img1 0 0 ≠ 0 ∨ pipeText img1 0 0 ≠ 0 := by
  have hmask : pipeMask img1 0 0 ≠ 0 :=
    (pipeMask_pos img1 (by decide) 0 0 (by decide) (by decide)).ne'
  exact (C5_partition_invariant img1 0 0).2.2.mp hmask

/-- C2: every pixel selected by the text mask is copied bit-for-bit from
the original image into the output (and the later whitening loop never
touches it, the refined and text masks being disjoint). -/
theorem C2_text_preservation (img : Img) (y x : ℕ) (hy : y < img.h) (hx : x < img.w)
    (ht : pipeText img y x ≠ 0) :
    (remove_watermark_from_image img).px y x = img.px y x := by
  have hb := pipeMask_bdd img y x
  have htm := textAt_eq img (pipeMask img) y x hb
  unfold pipeText at ht
  have hr0 : refinedAt img (pipeMask img) y x = 0 := by
    by_contra hne
    rw [htm, if_neg hne] at ht
    exact ht rfl
  have hm0 : pipeMask img y x ≠ 0 := by
    rw [htm, if_pos hr0] at ht
    exact ht
  have hsum := maskSum_ne_zero_of img (pipeMask img) hy hx hm0
  rw [remove_px img hsum, compositeAt_spec,
    if_neg (by rw [hr0]; rintro ⟨h0, _⟩; exact absurd h0 (lt_irrefl 0)),
    if_pos (Nat.pos_of_ne_zero ht)]

/-- Witness for C2: a 1x1 image with a dark pixel (value 100 below 175)
lands in the text mask and passes through unchanged. -/
theorem C2_text_preservation_witness :
    (remove_watermark_from_image img3).px 0 0 = ⟨0, 0, 100⟩ := by
  have hb := pipeMask_bdd img3 0 0
  have hmask : pipeMask img3 0 0 ≠ 0 :=
    (pipeMask_pos img3 (by decide) 0 0 (by decide) (by decide)).ne'
  have hval : (bgr2hsv (img3.px 0 0)).v < 175 := by decide
  have hr0 : refinedAt img3 (pipeMask img3) 0 0 = 0 := by
    unfold refinedAt
    rw [if_pos (Or.inr hval)]
  have ht : pipeText img3 0 0 ≠ 0 := by
    unfold pipeText
    rw [textAt_eq img3 (pipeMask img3) 0 0 hb, if_pos hr0]
    exact hmask
  exact C2_text_preservation img3 0 0 (by decide) (by decide) ht

/-- C1: for every pixel selected by the refined mask, a channel spread of
at least 50 in the original pixel yields pure white in the output, and a
spread below 50 yields the zero-saturation value-preserving transform (the
gray level at the pixel's maximum channel). -/
theorem C1_whitening_threshold (img : Img) (y x : ℕ) (hy : y < img.h) (hx : x < img.w)
    (hp : PxValid (img.px y x)) (hr : pipeRefined img y x ≠ 0) :
    (50 ≤ spreadPx (img.px y x) →
        (remove_watermark_from_image img).px y x = ⟨255, 255, 255⟩) ∧
      (spreadPx (img.px y x) < 50 →
        (remove_watermark_from_image img).px y x = desatPx (img.px y x)) := by
  unfold pipeRefined at hr
  have hb := pipeMask_bdd img y x
  have hrm : refinedAt img (pipeMask img) y x = pipeMask img y x := by
    rcases refinedAt_cases img (pipeMask img) y x with hc | hc
    · exact absurd hc hr
    · exact hc
  have hm0 : pipeMask img y x ≠ 0 := hrm ▸ hr
  have hsum := maskSum_ne_zero_of img (pipeMask img) hy hx hm0
  have ht0 : textAt img (pipeMask img) y x = 0 := by
    rw [textAt_eq img (pipeMask img) y x hb, if_neg hr]
  have hadj : adjSat img (pipeMask img) y x = 0 := by
    unfold adjSat
    rw [if_pos (Nat.pos_of_ne_zero hm0)]
  constructor
  · intro hs
    rw [remove_px img hsum, compositeAt_spec,
      if_pos ⟨Nat.pos_of_ne_zero hr, hs⟩]
  · intro hs
    rw [remove_px img hsum, compositeAt_spec,
      if_neg (fun hc => absurd hc.2 (by omega)),
      if_neg (by rw [ht0]; exact lt_irrefl 0),
      hadj, bgr2hsv_v,
      hsv2bgr_zero_sat _ _ (by unfold max3; unfold PxValid at hp; omega)]
    rfl

/-- Witness for C1: the pixel `(0,101,200)` (spread 200, value 200) is
whitened; the pixel `(200,190,180)` (spread 20, value 200) becomes the
gray `(200,200,200)`. -/
theorem C1_whitening_threshold_witness :
    (remove_watermark_from_image img1).px 0 0 = ⟨255, 255, 255⟩ ∧
      (remove_watermark_from_image img2).px 0 0 = ⟨200, 200, 200⟩ := by
  constructor
  · have hmask : 0 < pipeMask img1 0 0 :=
      pipeMask_pos img1 (by decide) 0 0 (by decide) (by decide)
    have hadj : adjSat img1 (pipeMask img1) 0 0 = 0 := by
      unfold adjSat
      rw [if_pos hmask]
    have hcond : ¬(30 < adjSat img1 (pipeMask img1) 0 0 ∨ (bgr2hsv (img1.px 0 0)).v < 175) := by
      rw [hadj]
      decide
    have hr : pipeRefined img1 0 0 ≠ 0 := by
      unfold pipeRefined refinedAt
      rw [if_neg hcond]
      exact hmask.ne'
    exact (C1_whitening_threshold img1 0 0 (by decide) (by decide) (by decide) hr).1 (by decide)
  · have hmask : 0 < pipeMask img2 0 0 :=
      pipeMask_pos img2 (by decide) 0 0 (by decide) (by decide)
    have hadj : adjSat img2 (pipeMask img2) 0 0 = 0 := by
      unfold adjSat
      rw [if_pos hmask]
    have hcond : ¬(30 < adjSat img2 (pipeMask img2) 0 0 ∨ (bgr2hsv (img2.px 0 0)).v < 175) := by
      rw [hadj]
      decide
    have hr : pipeRefined img2 0 0 ≠ 0 := by
      unfold pipeRefined refinedAt
      rw [if_neg hcond]
      exact hmask.ne'
    have h2 := (C1_whitening_threshold img2 0 0 (by decide) (by decide) (by decide) hr).2 (by decide)
    rw [h2]
    decide

/-- C6 counterexample: the compositor applied to a pixel NOT selected by
the mask does not return the original pixel: the BGR -> HSV -> BGR round
trip is lossy (hue is quantized to half degrees), so `(0,101,200)` comes
back as `(0,100,200)`. -/
theorem C6_frame_cex :
    zeroMask 0 0 = 0 ∧ compositeAt img1 zeroMask 0 0 ≠ img1.px 0 0 :=
  ⟨rfl, by decide⟩

/-- C6 amended: in the full pipeline no pixel is ever outside the mask
(the widest tolerance band spans the whole color cube), so the claim holds
only vacuously there; a pixel outside the mask receives the HSV round trip
of the original, which may differ from the original. -/
theorem C6_frame_amended (img : Img) (hv : ValidIn img) (y x : ℕ)
    (hy : y < img.h) (hx : x < img.w) :
    pipeMask img y x ≠ 0 ∧
      ∀ m : ℕ → ℕ → ℕ, m y x = 0 →
        compositeAt img m y x =
          hsv2bgr (bgr2hsv (img.px y x)).h (bgr2hsv (img.px y x)).s (bgr2hsv (img.px y x)).v := by
  refine ⟨(pipeMask_pos img hv y x hy hx).ne', ?_⟩
  intro m hm
  have hadj : adjSat img m y x = (bgr2hsv (img.px y x)).s := by
    unfold adjSat
    rw [if_neg (by omega)]
  have hr0 : refinedAt img m y x = 0 := by
    rcases refinedAt_cases img m y x with hc | hc
    · exact hc
    · rw [hc, hm]
  have ht0 : textAt img m y x = 0 := by
    unfold textAt
    rw [hm]
    exact Nat.zero_and _
  rw [compositeAt_spec,
    if_neg (by rw [hr0]; rintro ⟨h0, _⟩; exact absurd h0 (lt_irrefl 0)),
    if_neg (by rw [ht0]; exact lt_irrefl 0), hadj]

/-- Witness for the amended C6: on a concrete image, the pipeline mask is
nonzero at (0,0), and the compositor with an all-zero mask produces the
HSV round trip there. -/
theorem C6_frame_amended_witness :
    pipeMask img1 0 0 ≠ 0 ∧
      compositeAt img1 zeroMask 0 0 =
        hsv2bgr (bgr2hsv (img1.px 0 0)).h (bgr2hsv (img1.px 0 0)).s (bgr2hsv (img1.px 0 0)).v := by
  obtain ⟨h1, h2⟩ := C6_frame_amended img1 (by decide) 0 0 (by decide) (by decide)
  exact ⟨h1, h2 zeroMask rfl⟩

/-- C7 counterexample: for the all-white image the detector does NOT
return the fallback (the scan covers all 512 bin centers, zero-frequency
bins included, and some center always passes both filters), and the mask
built from the fallback color `(230,230,230)` against the all-white image
is not empty (white lies in the very first tolerance band of that color). -/
theorem C7_fallback_cex :
    detectColor allWhite11 ≠ (230, 230, 230) ∧
      maskSum allWhite11 (buildMask allWhite11 ((230 : ℤ), (230 : ℤ), (230 : ℤ))) ≠ 0 := by
  refine ⟨detect_ne_fallback allWhite11, ?_⟩
  apply maskSum_ne_zero_of allWhite11 _ (show (0 : ℕ) < allWhite11.h by decide)
    (show (0 : ℕ) < allWhite11.w by decide)
  exact (buildMask_pos allWhite11 ((230 : ℤ), (230 : ℤ), (230 : ℤ)) (by decide)
    (by decide) (by decide) (by decide) (by decide) (by decide) (by decide)
    0 0 (by decide) (by decide)).ne'

/-- C7 amended: for the all-white image the detector returns a non-fallback
bin center, the mask built from the fallback color is full rather than
empty, and the output nevertheless equals the input, because white
desaturates to itself (value 255, saturation 0) and has zero channel
spread, so neither whitening nor any visible change applies. -/
theorem C7_fallback_amended :
    detectColor allWhite11 ≠ (230, 230, 230) ∧
      maskSum allWhite11 (buildMask allWhite11 ((230 : ℤ), (230 : ℤ), (230 : ℤ))) ≠ 0 ∧
      (remove_watermark_from_image allWhite11).h = 1 ∧
      (remove_watermark_from_image allWhite11).w = 1 ∧
      ∀ y x : ℕ, (remove_watermark_from_image allWhite11).px y x = ⟨255, 255, 255⟩ := by
  have hv : ValidIn allWhite11 := by decide
  have hpos := pipeMask_pos allWhite11 hv
  have hsum : maskSum allWhite11 (pipeMask allWhite11) ≠ 0 :=
    maskSum_ne_zero_of allWhite11 (pipeMask allWhite11)
      (show (0 : ℕ) < allWhite11.h by decide) (show (0 : ℕ) < allWhite11.w by decide)
      (hpos 0 0 (by decide) (by decide)).ne'
  refine ⟨detect_ne_fallback allWhite11, ?_, ?_, ?_, ?_⟩
  · apply maskSum_ne_zero_of allWhite11 _ (show (0 : ℕ) < allWhite11.h by decide)
      (show (0 : ℕ) < allWhite11.w by decide)
    exact (buildMask_pos allWhite11 ((230 : ℤ), (230 : ℤ), (230 : ℤ)) (by decide)
      (by decide) (by decide) (by decide) (by decide) (by decide) (by decide)
      0 0 (by decide) (by decide)).ne'
  · unfold remove_watermark_from_image
    rw [if_neg hsum]
    rfl
  · unfold remove_watermark_from_image
    rw [if_neg hsum]
    rfl
  · intro y x
    rw [remove_px allWhite11 hsum y x, compositeAt_spec]
    have hpx : allWhite11.px y x = ⟨255, 255, 255⟩ := rfl
    have hbg : bgr2hsv (allWhite11.px y x) = ⟨0, 0, 255⟩ := by
      rw [hpx]
      decide
    have hs0 : spreadPx (allWhite11.px y x) = 0 := rfl
    have hadj : adjSat allWhite11 (pipeMask allWhite11) y x = 0 := by
      unfold adjSat
      split
      · rfl
      · rw [hbg]
    rw [if_neg (by rw [hs0]; rintro ⟨_, h50⟩; omega)]
    split
    · rfl
    · rw [hbg, hadj]
      decide

end WRM
